import Mathlib

/-!
Verification development for jv, a keyboard-driven terminal browser for a
parsed JSON document (files model.go, main.go and the json utility file).
The Go code is embedded shallowly: Go dynamic values become an inductive
type, the mutable model becomes a structure, each key handler becomes a
case of a pure step function, and a Go runtime panic is the value none.
Go map iteration order is unspecified, so every place the code ranges over
a map takes the key order chosen by the runtime as an explicit parameter.
-/

namespace JV

/-- A finite float64 value, represented exactly: every such value is an
integer mantissa divided by a power of two. The JSON numbers 1, 2, 3 are
⟨1, 0⟩, ⟨2, 0⟩, ⟨3, 0⟩ and 2.5 is ⟨5, 1⟩. -/
structure F64 where
  mant : ℤ
  exp2 : ℕ
deriving DecidableEq

/-- Go dynamic values as they occur in this program: the results of
json.Unmarshal into an empty interface (null, bool, float64, string, map,
slice) plus the Go int case that getVal additionally tests for. Note that
json.Unmarshal into an empty interface always represents a JSON number as
a float64, never as a Go int. -/
inductive GoVal : Type where
  | null : GoVal
  | bool : Bool → GoVal
  | float : F64 → GoVal
  | int : ℤ → GoVal
  | str : String → GoVal
  | obj : List (String × GoVal) → GoVal
  | arr : List GoVal → GoVal

/-- KVPair stores a key and value used in a map (model.go). -/
structure KVPair where
  Key : String
  Value : String
deriving DecidableEq

/-- Cursor contains the cursor's horizontal and vertical position
(model.go). RowNo is a Go int, modelled as ℤ. -/
structure Cursor where
  RowNo : ℤ
  IsKey : Bool
  IsEnd : Bool
  CursorDisplay : String
deriving DecidableEq

/-- The fields of the bubbles paginator that this program uses. -/
structure PageModel where
  page : ℤ
  perPage : ℤ
  totalPages : ℤ
deriving DecidableEq

/-- Model contains the data and its visual representation (model.go). -/
structure Model where
  Data : GoVal
  CurrC : Cursor
  CurrKV : List KVPair
  Path : List String
  Page : PageModel

/-- Round num divided by 2 to the power k to the nearest natural number,
ties to even, as Go's fixed-point formatting rounds the exact binary
value of a float64. -/
def roundTE (num : ℕ) (k : ℕ) : ℕ :=
  let d := 2 ^ k
  let f := num / d
  let r := num % d
  if 2 * r < d then f
  else if d < 2 * r then f + 1
  else if f % 2 = 0 then f else f + 1

/-- Left-pad the decimal digits of n with zeros to six characters. -/
def pad6 (n : ℕ) : String :=
  String.mk (List.replicate (6 - (Nat.repr n).length) '0') ++ Nat.repr n

/-- Models Go fmt.Sprintf with verb %f on a float64: fixed-point decimal
with exactly six fractional digits, rounded to nearest, ties to even. -/
def goFmtF (x : F64) : String :=
  let s := if x.mant < 0 then "-" else ""
  let n := roundTE (x.mant.natAbs * 1000000) x.exp2
  s ++ Nat.repr (n / 1000000) ++ "." ++ pad6 (n % 1000000)

/-- getVal (json utility file): the string shown for a value. The type
switch tries string, int, float64, bool, map, slice in that order and
falls through to the empty string (e.g. for nil). -/
def getVal : GoVal → String
  | .str s => s
  | .int n => toString n
  | .float q => goFmtF q
  | .bool b => if b then "true" else "false"
  | .obj _ => "\x7b\x7d"
  | .arr _ => "[]"
  | .null => ""

/-- getKAny (json utility file): type cast to a map of string and any;
a slice becomes a map keyed by the decimal index of each element; any
other value gives nil, modelled as none. -/
def getKAny : GoVal → Option (List (String × GoVal))
  | .obj l => some l
  | .arr l => some (l.enum.map fun p => (Nat.repr p.1, p.2))
  | _ => none

/-- Lookup in the association-list picture of a Go map. -/
def mapGet : List (String × GoVal) → String → Option GoVal
  | [], _ => none
  | p :: rest, k => if p.1 = k then some p.2 else mapGet rest k

/-- Go map indexing tempMap[k]: a nil map or an absent key yields the
zero value of the element type, here the nil interface. -/
def mapIndex : Option (List (String × GoVal)) → String → GoVal
  | none, _ => .null
  | some l, k => (mapGet l k).getD .null

/-- One range loop over a Go map, visiting keys in the runtime-chosen
order σ. Keys not present in the map are never produced by the runtime;
filterMap drops them so that any σ gives a well-defined list. -/
def rangeIter (m : List (String × GoVal)) (σ : List String) :
    List (String × GoVal) :=
  σ.filterMap fun k => (mapGet m k).map fun v => (k, v)

/-- A range loop over a possibly nil map: ranging over nil runs no
iterations. -/
def rangeIterO : Option (List (String × GoVal)) → List String →
    List (String × GoVal)
  | none, _ => []
  | some m, σ => rangeIter m σ

/-- getInitialKV (json utility file): the initial list of key-value rows
for a value; σ is the map iteration order chosen by the Go runtime. -/
def getInitialKV (σ : List String) (o : GoVal) : List KVPair :=
  match getKAny o with
  | none => []
  | some m => (rangeIter m σ).map fun p => ⟨p.1, getVal p.2⟩

/-- updateKV (model.go): recompute the row list from Data and Path; σ is
the runtime iteration order of the final map. An empty path refills from
the root; otherwise the path is walked key by key through nested maps,
where a failed step leaves a nil map and hence no rows. -/
def updateKV (data : GoVal) (path : List String) (σ : List String) :
    List KVPair :=
  if path = [] then getInitialKV σ data
  else
    match getKAny data with
    | none => []
    | some m0 =>
      let tempMap := path.foldl (fun acc k => getKAny (mapIndex acc k)) (some m0)
      (rangeIterO tempMap σ).map fun p => ⟨p.1, getVal p.2⟩

/-- The map that updateKV's walk of the path arrives at. -/
def resolvedMap (data : GoVal) (path : List String) :
    Option (List (String × GoVal)) :=
  match getKAny data with
  | none => none
  | some m0 => path.foldl (fun acc k => getKAny (mapIndex acc k)) (some m0)

/-- Resolving a path key by key against the root value (spec, Data Model):
each step looks the key up in the current value seen as a map. -/
def resolveVal (data : GoVal) (path : List String) : GoVal :=
  path.foldl (fun v k => mapIndex (getKAny v) k) data

/-- A value is a Collection (spec glossary) iff getKAny accepts it. -/
def isCollection (v : GoVal) : Bool :=
  (getKAny v).isSome

/-- Child of the collection reached by path, at key k. -/
def childLookup (data : GoVal) (path : List String) (k : String) :
    Option GoVal :=
  (resolvedMap data path).bind fun mm => mapGet mm k

/-- The keys of a possibly nil Go map. -/
def mapKeys : Option (List (String × GoVal)) → List String
  | none => []
  | some m => m.map Prod.fst

/-- σ is a possible Go map iteration order for the map om: ranging over a
Go map visits every key exactly once, in an unspecified order. -/
def ValidOrder (σ : List String) (om : Option (List (String × GoVal))) :
    Prop :=
  σ.Perm (mapKeys om)

/-- The paginator state returned by page.New(): page 0, one item per
page, one total page. -/
def pageNew : PageModel := ⟨0, 1, 1⟩

/-- bubbles paginator SetTotalPages: with fewer than one item the total
is left alone; otherwise the item count is divided by the page size,
rounding up. Go integer division panics when PerPage is zero, modelled
as none. Go division truncates toward zero, Int.tdiv and Int.tmod. -/
def setTotalPages (p : PageModel) (items : ℤ) : Option PageModel :=
  if items < 1 then some p
  else if p.perPage = 0 then none
  else some { p with
    totalPages := items.tdiv p.perPage +
      (if 0 < items.tmod p.perPage then 1 else 0) }

/-- bubbles paginator GetSliceBounds: start is page times perPage and end
is one page later, capped at the total length. start is not capped. -/
def getSliceBounds (p : PageModel) (length : ℤ) : ℤ × ℤ :=
  (p.page * p.perPage, min (p.page * p.perPage + p.perPage) length)

/-- bubbles paginator PrevPage: go back one page unless on the first. -/
def prevPage (p : PageModel) : PageModel :=
  if 0 < p.page then { p with page := p.page - 1 } else p

/-- bubbles paginator NextPage: advance one page unless on the last. -/
def nextPage (p : PageModel) : PageModel :=
  if p.page = p.totalPages - 1 then p else { p with page := p.page + 1 }

/-- The pagination part of View (model.go): the slice bounds are
computed first, then the page is moved back if the cursor row is before
start and forward if it is beyond end, and the row slice is rendered
with the bounds computed before the adjustment. -/
def viewBounds (p : PageModel) (rowNo length : ℤ) : (ℤ × ℤ) × PageModel :=
  let se := getSliceBounds p length
  let p1 := if rowNo < se.1 then prevPage p else p
  let p2 := if se.2 < rowNo then nextPage p1 else p1
  (se, p2)

/-- The key events handled by Update (model.go): up, down, right, left,
enter (descend) and x (ascend). -/
inductive Ev : Type where
  | up | down | right | left | enter | back
deriving DecidableEq

/-- The cursor state every handler that moves or rebuilds rows resets
to: row 0, on a key, not at an end, showing the right-pointing glyph. -/
def cursorReset : Cursor := ⟨0, true, false, "→"⟩

/-- Go slice indexing l[i] for a Go int index: out of range panics,
modelled as none. -/
def idx (l : List KVPair) (i : ℤ) : Option KVPair :=
  if i < 0 then none else l.get? i.toNat

/-- One Update step (model.go) for a key event. σ is the iteration order
the runtime picks if the row list is rebuilt. none models a Go runtime
panic. The trailing paginator Update call is the identity because the
paginator's own page-turn key bindings are unbound in NewModel. -/
def step (σ : List String) (e : Ev) (m : Model) : Option Model :=
  match e with
  | .up =>
      some { m with CurrC :=
        ⟨if 0 < m.CurrC.RowNo then m.CurrC.RowNo - 1 else m.CurrC.RowNo,
         true, false, "→"⟩ }
  | .down =>
      some { m with CurrC :=
        ⟨if m.CurrC.RowNo < (m.CurrKV.length : ℤ) - 1 then m.CurrC.RowNo + 1
          else m.CurrC.RowNo,
         true, false, "→"⟩ }
  | .right =>
      if m.CurrC.IsKey then
        match idx m.CurrKV m.CurrC.RowNo with
        | none => none
        | some kv =>
          if kv.Value ≠ "\x7b\x7d" ∧ kv.Value ≠ "[]" then
            some { m with CurrC := ⟨m.CurrC.RowNo, false, true, "←"⟩ }
          else
            some { m with CurrC := ⟨m.CurrC.RowNo, false, false, "→"⟩ }
      else some m
  | .left =>
      some { m with CurrC := ⟨m.CurrC.RowNo, true, false, "→"⟩ }
  | .enter =>
      if m.CurrC.IsKey = false ∧ m.CurrC.IsEnd = false then
        match idx m.CurrKV m.CurrC.RowNo with
        | none => none
        | some kv =>
          let path := m.Path ++ [kv.Key]
          let kvs := updateKV m.Data path σ
          match setTotalPages m.Page (kvs.length : ℤ) with
          | none => none
          | some p =>
            some { m with Path := path, CurrC := cursorReset,
                          CurrKV := kvs, Page := p }
      else some m
  | .back =>
      let path := if m.Path = [] then m.Path else m.Path.dropLast
      let kvs := updateKV m.Data path σ
      match setTotalPages m.Page (kvs.length : ℤ) with
      | none => none
      | some p =>
        some { m with Path := path, CurrC := cursorReset,
                      CurrKV := kvs, Page := p }

/-- NewModel (model.go), after the JSON has been read from stdin and
parsed into data: construction fails (Go nil, here none) when there are
no initial rows; otherwise the cursor starts at row 0 on a key, the path
is empty, and the paginator is initialised. σ is the runtime iteration
order for the initial rows. -/
def NewModel (σ : List String) (data : GoVal) : Option Model :=
  let kvpairs := getInitialKV σ data
  if kvpairs = [] then none
  else
    match setTotalPages pageNew (kvpairs.length : ℤ) with
    | none => none
    | some p => some ⟨data, cursorReset, kvpairs, [], p⟩

/-- The map, if any, that the runtime ranges over while handling event e
in model m; its keys constrain the admissible iteration orders. -/
def iterMapOf (e : Ev) (m : Model) : Option (List (String × GoVal)) :=
  match e with
  | .enter =>
      if m.CurrC.IsKey = false ∧ m.CurrC.IsEnd = false then
        match idx m.CurrKV m.CurrC.RowNo with
        | none => none
        | some kv => resolvedMap m.Data (m.Path ++ [kv.Key])
      else none
  | .back =>
      resolvedMap m.Data (if m.Path = [] then m.Path else m.Path.dropLast)
  | _ => none

/-- The states of the navigation machine reachable from a successful
construction on document data, through event steps whose iteration
orders are ones the Go runtime could choose. -/
inductive Reach (data : GoVal) : Model → Prop where
  | init : ∀ σ m, ValidOrder σ (getKAny data) → NewModel σ data = some m →
      Reach data m
  | next : ∀ m e σ m', Reach data m → ValidOrder σ (iterMapOf e m) →
      step σ e m = some m' → Reach data m'

/-- Documents on which the expandability test of the right handler is
exact: no string value anywhere in the document reads as a brace pair or
bracket pair, and, being unmarshalled JSON, the document holds no Go int
values (json.Unmarshal into an empty interface never produces one). -/
inductive SafeDoc : GoVal → Prop where
  | null : SafeDoc .null
  | bool : ∀ b, SafeDoc (.bool b)
  | float : ∀ x, SafeDoc (.float x)
  | str : ∀ s, s ≠ "\x7b\x7d" → s ≠ "[]" → SafeDoc (.str s)
  | obj : ∀ l, (∀ p ∈ l, SafeDoc p.2) → SafeDoc (.obj l)
  | arr : ∀ l, (∀ v ∈ l, SafeDoc v) → SafeDoc (.arr l)

/-- The cursor bound stated in the spec: row 0 when there are no rows,
otherwise a row index inside the row list. -/
def validCursor (m : Model) : Prop :=
  (m.CurrKV = [] → m.CurrC.RowNo = 0) ∧
  (m.CurrKV ≠ [] → 0 ≤ m.CurrC.RowNo ∧ m.CurrC.RowNo < (m.CurrKV.length : ℤ))

/-- Run a list of events through step; up and down never rebuild rows so
the iteration order parameter is irrelevant for them. -/
def stepMoves : List Ev → Model → Option Model
  | [], m => some m
  | e :: rest, m => (step [] e m).bind (stepMoves rest)

/-- Scalars in the sense of the spec glossary: anything but an object or
an array. -/
def isScalar (v : GoVal) : Bool :=
  match v with
  | .obj _ => false
  | .arr _ => false
  | _ => true

/-- An empty object or empty array. -/
def isEmptyCollection (v : GoVal) : Bool :=
  match v with
  | .obj [] => true
  | .arr [] => true
  | _ => false

/-- The rendering rule of the spec's Data Model section, as amended: a
string renders as itself, a Go int in decimal, a float64 in fixed-point
decimal with six fractional digits, a boolean as true or false, an
object as a brace pair, an array as a bracket pair, anything else as the
empty string. JSON numbers always arrive as float64. -/
def renderValueSpec : GoVal → String
  | .str s => s
  | .int n => toString n
  | .float x => goFmtF x
  | .bool b => if b then "true" else "false"
  | .obj _ => "\x7b\x7d"
  | .arr _ => "[]"
  | .null => ""

instance (σ : List String) (om : Option (List (String × GoVal))) :
    Decidable (ValidOrder σ om) :=
  inferInstanceAs (Decidable (σ.Perm (mapKeys om)))

instance (m : Model) : Decidable (validCursor m) := by
  unfold validCursor
  infer_instance

/-- Part of the state invariant: when the cursor sits on a value and is
not at an end, the row under it exists and its rendered value is a brace
pair or a bracket pair (the expandability test of the right handler). -/
def cursorOKFocus (m : Model) : Prop :=
  m.CurrC.IsKey = false → m.CurrC.IsEnd = false →
    ∃ kv, idx m.CurrKV m.CurrC.RowNo = some kv ∧
      (kv.Value = "\x7b\x7d" ∨ kv.Value = "[]")

/-- The navigation invariant: the model still holds the document, every
take-front of the path resolves to a safe collection, every current row
is the rendering of a child of the resolved collection, and the focus
flags are consistent with the row under the cursor. -/
def Inv (data : GoVal) (m : Model) : Prop :=
  m.Data = data ∧
  (∀ n, isCollection (resolveVal data (m.Path.take n)) = true ∧
      SafeDoc (resolveVal data (m.Path.take n))) ∧
  (∀ kv ∈ m.CurrKV, ∃ v, childLookup data m.Path kv.Key = some v ∧
      kv.Value = getVal v) ∧
  cursorOKFocus m

/-- The document of the panic trace: a root object whose only entry is
an empty object. -/
def c1doc : GoVal := .obj [("a", .obj [])]

/-- The panic trace after construction. -/
def c1s0 : Model := ⟨c1doc, cursorReset, [⟨"a", "\x7b\x7d"⟩], [], ⟨0, 1, 1⟩⟩

/-- The panic trace after pressing right: focus on the expandable value. -/
def c1s1 : Model := ⟨c1doc, ⟨0, false, false, "→"⟩, [⟨"a", "\x7b\x7d"⟩], [], ⟨0, 1, 1⟩⟩

/-- The panic trace after pressing enter: descended into the empty
object, so the row list is empty while the cursor is at row 0. -/
def c1s2 : Model := ⟨c1doc, cursorReset, [], ["a"], ⟨0, 1, 1⟩⟩

/-- The document of the path-invariant counterexample: a root object
whose only value is the two-character string consisting of an opening
and a closing brace. -/
def c4doc : GoVal := .obj [("a", .str "\x7b\x7d")]

/-- The counterexample trace after construction. -/
def c4s0 : Model := ⟨c4doc, cursorReset, [⟨"a", "\x7b\x7d"⟩], [], ⟨0, 1, 1⟩⟩

/-- After pressing right: the scalar string renders exactly like an
object, so the handler clears IsEnd and treats it as expandable. -/
def c4s1 : Model := ⟨c4doc, ⟨0, false, false, "→"⟩, [⟨"a", "\x7b\x7d"⟩], [], ⟨0, 1, 1⟩⟩

/-- After pressing enter: the path now ends at a scalar string. -/
def c4s2 : Model := ⟨c4doc, cursorReset, [], ["a"], ⟨0, 1, 1⟩⟩

/-- The document of the descend-ascend counterexample: two keys, each
holding an empty object. -/
def c6doc : GoVal := .obj [("a", .obj []), ("b", .obj [])]

/-- State just after construction with iteration order a then b. -/
def c6s0 : Model :=
  ⟨c6doc, cursorReset, [⟨"a", "\x7b\x7d"⟩, ⟨"b", "\x7b\x7d"⟩], [], ⟨0, 1, 2⟩⟩

/-- Pre-descend state: rows listed in the order a then b, with the
cursor focused on the value of row a. -/
def c6pre : Model :=
  ⟨c6doc, ⟨0, false, false, "→"⟩,
   [⟨"a", "\x7b\x7d"⟩, ⟨"b", "\x7b\x7d"⟩], [], ⟨0, 1, 2⟩⟩

/-- After descending into a: the empty object gives no rows. -/
def c6mid : Model := ⟨c6doc, cursorReset, [], ["a"], ⟨0, 1, 2⟩⟩

/-- After ascending with runtime iteration order b then a: the same two
rows come back in the other order. -/
def c6post : Model :=
  ⟨c6doc, cursorReset, [⟨"b", "\x7b\x7d"⟩, ⟨"a", "\x7b\x7d"⟩], [], ⟨0, 1, 2⟩⟩

/-- The document of the ascend-at-root counterexample: two scalar
entries. -/
def c7doc : GoVal := .obj [("a", .null), ("b", .null)]

/-- State at the root after construction with order a then b. -/
def c7s0 : Model := ⟨c7doc, cursorReset, [⟨"a", ""⟩, ⟨"b", ""⟩], [], ⟨0, 1, 2⟩⟩

/-- State after pressing down: cursor on row 1, path still empty. -/
def c7s1 : Model := ⟨c7doc, ⟨1, true, false, "→"⟩, [⟨"a", ""⟩, ⟨"b", ""⟩], [], ⟨0, 1, 2⟩⟩

/-- State after pressing x at the root: the path stays empty but the
cursor has been reset to row 0. -/
def c7s2 : Model := ⟨c7doc, cursorReset, [⟨"a", ""⟩, ⟨"b", ""⟩], [], ⟨0, 1, 2⟩⟩

/-! Helper lemmas about the embedded functions. -/

theorem mapGet_eq_some_mem {l : List (String × GoVal)} {k : String}
    {v : GoVal} (h : mapGet l k = some v) : (k, v) ∈ l := by
  induction l with
  | nil => simp [mapGet] at h
  | cons p rest ih =>
    by_cases hp : p.1 = k
    · simp only [mapGet, if_pos hp, Option.some.injEq] at h
      subst hp; subst h; exact List.mem_cons_self _ _
    · simp only [mapGet, if_neg hp] at h
      exact List.mem_cons_of_mem _ (ih h)

theorem mapGet_isSome_of_mem_keys {l : List (String × GoVal)} {k : String}
    (h : k ∈ l.map Prod.fst) : (mapGet l k).isSome = true := by
  induction l with
  | nil => simp at h
  | cons p rest ih =>
    by_cases hp : p.1 = k
    · simp [mapGet, hp]
    · simp only [List.map_cons, List.mem_cons] at h
      rcases h with h | h
      · exact absurd h.symm hp
      · simpa [mapGet, hp] using ih h

theorem mem_rangeIter {m : List (String × GoVal)} {σ : List String}
    {p : String × GoVal} (h : p ∈ rangeIter m σ) : mapGet m p.1 = some p.2 := by
  simp only [rangeIter, List.mem_filterMap] at h
  obtain ⟨k, _, hk⟩ := h
  cases hmk : mapGet m k with
  | none => rw [hmk] at hk; simp at hk
  | some v =>
    rw [hmk] at hk
    simp only [Option.map_some', Option.some.injEq] at hk
    rw [← hk]; exact hmk

theorem rangeIter_keys {m : List (String × GoVal)} {σ : List String}
    (h : ∀ k ∈ σ, (mapGet m k).isSome = true) :
    (rangeIter m σ).map Prod.fst = σ := by
  induction σ with
  | nil => rfl
  | cons k rest ih =>
    have hk := h k (List.mem_cons_self _ _)
    cases hmk : mapGet m k with
    | none => rw [hmk] at hk; simp at hk
    | some v =>
      simp only [rangeIter, List.filterMap_cons, hmk, Option.map_some',
        List.map_cons]
      exact congrArg (k :: ·) (ih fun k' hk' => h k' (List.mem_cons_of_mem _ hk'))

theorem rangeIter_perm (m : List (String × GoVal)) {σ σ' : List String}
    (h : σ.Perm σ') : (rangeIter m σ).Perm (rangeIter m σ') :=
  h.filterMap _

theorem rangeIterO_perm (om : Option (List (String × GoVal)))
    {σ σ' : List String} (h : σ.Perm σ') :
    (rangeIterO om σ).Perm (rangeIterO om σ') := by
  cases om with
  | none => exact List.Perm.refl _
  | some m => exact rangeIter_perm m h

theorem rangeIter_nil (σ : List String) : rangeIter [] σ = [] := by
  induction σ with
  | nil => rfl
  | cons k rest ih => simp [rangeIter, mapGet]

theorem getInitialKV_eq (σ : List String) (data : GoVal) :
    getInitialKV σ data =
      (rangeIterO (getKAny data) σ).map fun p => ⟨p.1, getVal p.2⟩ := by
  unfold getInitialKV
  cases getKAny data <;> rfl

theorem updateKV_eq (data : GoVal) (path σ : List String) :
    updateKV data path σ =
      (rangeIterO (resolvedMap data path) σ).map fun p => ⟨p.1, getVal p.2⟩ := by
  cases path with
  | nil =>
    rw [updateKV, if_pos rfl, getInitialKV_eq]
    unfold resolvedMap
    cases getKAny data <;> rfl
  | cons k ks =>
    rw [updateKV, if_neg (by simp)]
    unfold resolvedMap
    cases getKAny data with
    | none => rfl
    | some m0 => rfl

theorem updateKV_perm (data : GoVal) (path : List String)
    {σ σ' : List String} (h : σ.Perm σ') :
    (updateKV data path σ).Perm (updateKV data path σ') := by
  rw [updateKV_eq, updateKV_eq]
  exact (rangeIterO_perm _ h).map _

theorem foldl_getKAny_none (path : List String) :
    path.foldl (fun acc k => getKAny (mapIndex acc k)) none = none := by
  induction path with
  | nil => rfl
  | cons k ks ih => simp only [List.foldl_cons]; exact ih

theorem foldl_getKAny (path : List String) (v : GoVal) :
    path.foldl (fun acc k => getKAny (mapIndex acc k)) (getKAny v)
      = getKAny (path.foldl (fun w k => mapIndex (getKAny w) k) v) := by
  induction path generalizing v with
  | nil => rfl
  | cons k ks ih => simpa using ih (mapIndex (getKAny v) k)

theorem resolvedMap_eq (data : GoVal) (path : List String) :
    resolvedMap data path = getKAny (resolveVal data path) := by
  have hstep : resolvedMap data path
      = path.foldl (fun acc k => getKAny (mapIndex acc k)) (getKAny data) := by
    unfold resolvedMap
    cases h : getKAny data with
    | none => rw [foldl_getKAny_none]
    | some m0 => rfl
  rw [hstep, foldl_getKAny]
  rfl

theorem resolveVal_append (data : GoVal) (p : List String) (k : String) :
    resolveVal data (p ++ [k]) = mapIndex (getKAny (resolveVal data p)) k := by
  simp [resolveVal, List.foldl_append]

theorem updateKV_rows (data : GoVal) (path σ : List String) :
    ∀ kv ∈ updateKV data path σ, ∃ v,
      childLookup data path kv.Key = some v ∧ kv.Value = getVal v := by
  intro kv hkv
  rw [updateKV_eq] at hkv
  obtain ⟨p, hp, hkv⟩ := List.mem_map.1 hkv
  cases hr : resolvedMap data path with
  | none => rw [hr] at hp; simp [rangeIterO] at hp
  | some mm =>
    rw [hr] at hp
    refine ⟨p.2, ?_, by rw [← hkv]⟩
    simp only [childLookup, hr, Option.bind_eq_bind, Option.some_bind]
    rw [← hkv]
    exact mem_rangeIter hp

theorem SafeDoc_child {v : GoVal} {mm : List (String × GoVal)} {k : String}
    {w : GoVal} (hs : SafeDoc v) (h1 : getKAny v = some mm)
    (h2 : mapGet mm k = some w) : SafeDoc w := by
  cases hs with
  | null => simp [getKAny] at h1
  | bool b => simp [getKAny] at h1
  | float x => simp [getKAny] at h1
  | str s hs1 hs2 => simp [getKAny] at h1
  | obj l hl =>
    simp only [getKAny, Option.some.injEq] at h1
    subst h1
    exact hl _ (mapGet_eq_some_mem h2)
  | arr l hl =>
    simp only [getKAny, Option.some.injEq] at h1
    subst h1
    have hm := mapGet_eq_some_mem h2
    obtain ⟨p, hp, hpe⟩ := List.mem_map.1 hm
    have : p.2 = w := congrArg Prod.snd hpe
    subst this
    have hp2 := List.mem_enum_iff_getElem?.1 hp
    exact hl _ (List.getElem?_mem hp2)

theorem string_mk_length (l : List Char) : (String.mk l).length = l.length := rfl

theorem pad6_length (n : ℕ) : 6 ≤ (pad6 n).length := by
  unfold pad6
  rw [String.length_append, string_mk_length, List.length_replicate]
  omega

theorem goFmtF_length (x : F64) : 7 ≤ (goFmtF x).length := by
  unfold goFmtF
  simp only [String.length_append]
  have h6 := pad6_length (roundTE (x.mant.natAbs * 1000000) x.exp2 % 1000000)
  have hdot : (".").length = 1 := rfl
  omega

theorem goFmtF_ne_braces (x : F64) : goFmtF x ≠ "\x7b\x7d" := by
  intro h
  have := congrArg String.length h
  have h7 := goFmtF_length x
  rw [this] at h7
  simp [String.length] at h7

theorem goFmtF_ne_brackets (x : F64) : goFmtF x ≠ "[]" := by
  intro h
  have := congrArg String.length h
  have h7 := goFmtF_length x
  rw [this] at h7
  simp [String.length] at h7

theorem getVal_expandable {v : GoVal} (hs : SafeDoc v)
    (h : getVal v = "\x7b\x7d" ∨ getVal v = "[]") : isCollection v = true := by
  cases hs with
  | null => rcases h with h | h <;> simp [getVal] at h
  | bool b => cases b <;> rcases h with h | h <;> simp [getVal] at h
  | float x =>
    rcases h with h | h
    · exact absurd h (goFmtF_ne_braces x)
    · exact absurd h (goFmtF_ne_brackets x)
  | str s hs1 hs2 =>
    rcases h with h | h
    · exact absurd h hs1
    · exact absurd h hs2
  | obj l hl => rfl
  | arr l hl => rfl

theorem setTotalPages_isSome {p : PageModel} (items : ℤ)
    (h : p.perPage ≠ 0) : (setTotalPages p items).isSome = true := by
  by_cases h1 : items < 1
  · simp [setTotalPages, h1]
  · simp [setTotalPages, h1, h]

theorem setTotalPages_fields {p p' : PageModel} {items : ℤ}
    (h : setTotalPages p items = some p') :
    p'.perPage = p.perPage ∧ p'.page = p.page := by
  unfold setTotalPages at h
  split at h
  · cases h; exact ⟨rfl, rfl⟩
  · split at h
    · cases h
    · cases h; exact ⟨rfl, rfl⟩

theorem idx_mem {l : List KVPair} {i : ℤ} {kv : KVPair}
    (h : idx l i = some kv) : kv ∈ l := by
  unfold idx at h
  split at h
  · cases h
  · exact List.get?_mem h

theorem getInitialKV_ne_nil {data : GoVal} {mm : List (String × GoVal)}
    {σ : List String} (hk : getKAny data = some mm) (hne : mm ≠ [])
    (hσ : ValidOrder σ (getKAny data)) : getInitialKV σ data ≠ [] := by
  rw [getInitialKV_eq, hk]
  simp only [rangeIterO]
  intro hcon
  have h0 : rangeIter mm σ = [] := by
    cases hr : rangeIter mm σ with
    | nil => rfl
    | cons a rest => rw [hr] at hcon; simp at hcon
  have hσ' : σ.Perm (mm.map Prod.fst) := by
    have := hσ
    rw [ValidOrder, hk] at this
    exact this
  have hkeys : (rangeIter mm σ).map Prod.fst = σ :=
    rangeIter_keys fun k hkσ =>
      mapGet_isSome_of_mem_keys (hσ'.mem_iff.1 hkσ)
  rw [h0] at hkeys
  rw [← hkeys] at hσ'
  have := hσ'.symm.eq_nil
  rw [List.map_eq_nil_iff] at this
  exact hne this

/-! The claims. -/

/-- C1: the claim states that handling any input event in any reachable
state never panics and in particular that the FocusValue handler's row
access stays in bounds. The code violates this and the spec's intent is
clear, so this is a code bug; this theorem evaluates the code at the
failing input. The state c1s2 is reachable from the document holding one
empty object (events: right, enter), its row list is empty, and handling
the right key there dereferences the row slice at index 0, which is a Go
runtime panic, modelled as none. -/
theorem c1_focus_value_panics :
    Reach c1doc c1s2 ∧ c1s2.CurrKV = [] ∧ step [] Ev.right c1s2 = none :=
  ⟨Reach.next c1s1 .enter [] c1s2
      (Reach.next c1s0 .right [] c1s1
        (Reach.init ["a"] c1s0 (by decide) rfl) (by decide) rfl)
      (by decide) rfl,
   rfl, rfl⟩

/-- C2 counterexample: json.Unmarshal into an empty interface stores
every JSON number as a float64, so the in-memory first element of the
array holding 1, 2, 3 is the float value 1; getVal renders it through
the %f verb as 1.000000, not as the bare digit string the claim
requires. -/
theorem c2_counterexample :
    getVal (GoVal.float ⟨1, 0⟩) = "1.000000" ∧
    ¬ getVal (GoVal.float ⟨1, 0⟩) = "1" := by decide

/-- C2 amended: getVal renders a string as itself, a Go int in decimal
(a case that unmarshalled JSON never produces), every JSON number — a
float64 — in fixed-point decimal with six fractional digits, a boolean
as true or false, an object as a brace pair, an array as a bracket pair,
and anything else as the empty string; in particular the elements of the
array holding 1, 2, 3 render as 1.000000, 2.000000, 3.000000. -/
theorem c2_amended :
    (∀ v : GoVal, getVal v = renderValueSpec v) ∧
    getVal (GoVal.float ⟨1, 0⟩) = "1.000000" ∧
    getVal (GoVal.float ⟨2, 0⟩) = "2.000000" ∧
    getVal (GoVal.float ⟨3, 0⟩) = "3.000000" ∧
    getVal (GoVal.float ⟨5, 1⟩) = "2.500000" ∧
    getVal (GoVal.int 7) = "7" ∧
    getVal (GoVal.str "x") = "x" ∧
    getVal (GoVal.bool true) = "true" ∧
    getVal (GoVal.bool false) = "false" ∧
    getVal (GoVal.obj []) = "\x7b\x7d" ∧
    getVal (GoVal.arr []) = "[]" ∧
    getVal GoVal.null = "" :=
  ⟨fun v => by cases v <;> rfl, by decide⟩

/-- C3 counterexample: the rows for an array are produced by ranging
over a Go map keyed by the stringified indices, whose iteration order is
unspecified; the order 1, 0, 2 is a legal iteration order for the array
holding 1, 2, 3 and yields the rows keyed in that order, not in sequence
order as the claim states. -/
theorem c3_counterexample :
    ValidOrder ["1", "0", "2"]
      (getKAny (GoVal.arr [.float ⟨1, 0⟩, .float ⟨2, 0⟩, .float ⟨3, 0⟩])) ∧
    (getInitialKV ["1", "0", "2"]
        (GoVal.arr [.float ⟨1, 0⟩, .float ⟨2, 0⟩, .float ⟨3, 0⟩])).map
        KVPair.Key = ["1", "0", "2"] ∧
    ["1", "0", "2"] ≠ ["0", "1", "2"] := by decide

/-- C3 amended: for every JSON array, under any iteration order the Go
runtime may choose, the derived rows carry exactly the stringified
zero-based indices as keys, as a permutation of 0 up to the length, and
every row pairs the stringified index i with the rendering of the
element at index i; the sequence order itself is not guaranteed. -/
theorem c3_amended (l : List GoVal) (σ : List String)
    (h : ValidOrder σ (getKAny (GoVal.arr l))) :
    ((getInitialKV σ (GoVal.arr l)).map KVPair.Key).Perm
      ((List.range l.length).map Nat.repr) ∧
    ∀ kv ∈ getInitialKV σ (GoVal.arr l), ∃ i v, kv.Key = Nat.repr i ∧
      l.get? i = some v ∧ kv.Value = getVal v := by
  have hmm : getKAny (GoVal.arr l)
      = some (l.enum.map fun p => (Nat.repr p.1, p.2)) := rfl
  have hσ' : σ.Perm ((l.enum.map fun p => (Nat.repr p.1, p.2)).map Prod.fst) := by
    have := h; rw [ValidOrder, hmm] at this; exact this
  have hkeys : (l.enum.map fun p => (Nat.repr p.1, p.2)).map Prod.fst
      = (List.range l.length).map Nat.repr := by
    rw [List.map_map]
    have h1 : (Prod.fst ∘ fun p : ℕ × GoVal => (Nat.repr p.1, p.2))
        = Nat.repr ∘ Prod.fst := rfl
    rw [h1, ← List.map_map, List.enum_map_fst]
  constructor
  · have hrows : (getInitialKV σ (GoVal.arr l)).map KVPair.Key
        = (rangeIter (l.enum.map fun p => (Nat.repr p.1, p.2)) σ).map Prod.fst := by
      rw [getInitialKV_eq, hmm, rangeIterO, List.map_map]
      rfl
    rw [hrows, rangeIter_keys fun k hkσ =>
      mapGet_isSome_of_mem_keys (hσ'.mem_iff.1 hkσ)]
    rw [← hkeys]
    exact hσ'
  · intro kv hkv
    rw [getInitialKV_eq, hmm] at hkv
    obtain ⟨p, hp, hkveq⟩ := List.mem_map.1 hkv
    have hget := mem_rangeIter hp
    have hmem := mapGet_eq_some_mem hget
    obtain ⟨q, hq, hqe⟩ := List.mem_map.1 hmem
    have hq2 := List.mem_enum_iff_getElem?.1 hq
    refine ⟨q.1, q.2, ?_, ?_, ?_⟩
    · rw [← hkveq]
      exact (congrArg Prod.fst hqe).symm
    · rw [List.get?_eq_getElem?]
      exact hq2
    · rw [← hkveq]
      exact congrArg getVal (congrArg Prod.snd hqe).symm

/-- C3 witness: the amended statement applied to the array holding
1, 2, 3 with the iteration order 0, 1, 2. -/
theorem c3_witness :
    ((getInitialKV ["0", "1", "2"]
        (GoVal.arr [.float ⟨1, 0⟩, .float ⟨2, 0⟩, .float ⟨3, 0⟩])).map
        KVPair.Key).Perm
      ((List.range
        ([GoVal.float ⟨1, 0⟩, .float ⟨2, 0⟩, .float ⟨3, 0⟩] : List GoVal).length).map
        Nat.repr) ∧
    ∀ kv ∈ getInitialKV ["0", "1", "2"]
        (GoVal.arr [.float ⟨1, 0⟩, .float ⟨2, 0⟩, .float ⟨3, 0⟩]),
      ∃ i v, kv.Key = Nat.repr i ∧
        ([GoVal.float ⟨1, 0⟩, .float ⟨2, 0⟩, .float ⟨3, 0⟩] : List GoVal).get? i
          = some v ∧ kv.Value = getVal v :=
  c3_amended [.float ⟨1, 0⟩, .float ⟨2, 0⟩, .float ⟨3, 0⟩] ["0", "1", "2"]
    (by decide)

/-- C5 counterexample: with page 0, one row per page, two rows and the
cursor on row 1, the computed bounds are 0 and 1, so the contract start
at most cursor, cursor below end fails, and the adjusted view still
renders the stale slice; with page 1, two rows per page and one row
total, start is 2, above the total, so start is not clamped. -/
theorem c5_counterexample :
    getSliceBounds ⟨0, 1, 2⟩ 2 = (0, 1) ∧
    (viewBounds ⟨0, 1, 2⟩ 1 2).1 = (0, 1) ∧
    ¬ ((getSliceBounds ⟨0, 1, 2⟩ 2).1 ≤ 1 ∧
        1 < (getSliceBounds ⟨0, 1, 2⟩ 2).2) ∧
    getSliceBounds ⟨1, 2, 2⟩ 1 = (2, 1) ∧
    ¬ (getSliceBounds ⟨1, 2, 2⟩ 1).1 ≤ 1 := by decide

/-- C5 amended: for a nonnegative page index and page size, the bounds
computed on render satisfy zero at most start, end at most totalRows and
end minus start at most pageSize; the claim's remaining parts — the
cursor lying inside the slice and start clamped above by totalRows — do
not hold of the code. -/
theorem c5_amended (p : PageModel) (len : ℤ)
    (hpage : 0 ≤ p.page) (hpp : 0 ≤ p.perPage) :
    0 ≤ (getSliceBounds p len).1 ∧ (getSliceBounds p len).2 ≤ len ∧
    (getSliceBounds p len).2 - (getSliceBounds p len).1 ≤ p.perPage := by
  unfold getSliceBounds
  refine ⟨mul_nonneg hpage hpp, min_le_right _ _, ?_⟩
  have h := min_le_left (p.page * p.perPage + p.perPage) len
  simp only
  linarith

/-- C5 witness: the amended bounds at page 0, page size 1, five rows. -/
theorem c5_witness :
    0 ≤ (getSliceBounds ⟨0, 1, 1⟩ 5).1 ∧ (getSliceBounds ⟨0, 1, 1⟩ 5).2 ≤ 5 ∧
    (getSliceBounds ⟨0, 1, 1⟩ 5).2 - (getSliceBounds ⟨0, 1, 1⟩ 5).1 ≤ (1 : ℤ) :=
  c5_amended ⟨0, 1, 1⟩ 5 (by decide) (by decide)

/-- C6 counterexample: from the reachable pre-descend state over a root
with entries a and b (both empty objects), descending into a and
ascending back with the legal iteration order b then a restores the path
but returns the rows in the other order, so Rows is not exactly the
pre-descend list. -/
theorem c6_counterexample :
    Reach c6doc c6pre ∧
    step [] Ev.enter c6pre = some c6mid ∧
    ValidOrder ["b", "a"] (iterMapOf Ev.back c6mid) ∧
    step ["b", "a"] Ev.back c6mid = some c6post ∧
    c6post.Path = c6pre.Path ∧
    c6post.CurrKV ≠ c6pre.CurrKV :=
  ⟨Reach.next c6s0 .right [] c6pre
      (Reach.init ["a", "b"] c6s0 (by decide) rfl) (by decide) rfl,
   rfl, by decide, rfl, rfl, by decide⟩

/-- C6 amended: Descend then Ascend with no intervening move, on an
unchanged document, restores the Path exactly, resets the cursor to row
0 on a key, and restores the row list up to permutation — exact equality
of the rows is not guaranteed because the rebuilt list is produced by a
fresh Go map iteration whose order is unspecified. -/
theorem c6_amended (m m1 m2 : Model) (σ0 σ1 σ2 : List String) (kv : KVPair)
    (hkv : m.CurrKV = updateKV m.Data m.Path σ0)
    (hv0 : ValidOrder σ0 (resolvedMap m.Data m.Path))
    (hfoc : m.CurrC.IsKey = false) (hend : m.CurrC.IsEnd = false)
    (hidx : idx m.CurrKV m.CurrC.RowNo = some kv)
    (hv2 : ValidOrder σ2 (resolvedMap m.Data m.Path))
    (h1 : step σ1 Ev.enter m = some m1)
    (h2 : step σ2 Ev.back m1 = some m2) :
    m2.Path = m.Path ∧ m2.CurrC = cursorReset ∧ m2.CurrKV.Perm m.CurrKV := by
  simp only [step] at h1
  rw [if_pos ⟨hfoc, hend⟩] at h1
  split at h1
  · cases h1
  · rename_i kv' hkv'
    rw [hidx] at hkv'
    cases hkv'
    split at h1
    · cases h1
    · rename_i p1 hstp
      cases h1
      simp only [step] at h2
      rw [if_neg (by simp)] at h2
      rw [List.dropLast_concat] at h2
      split at h2
      · cases h2
      · rename_i p2 hstp2
        cases h2
        refine ⟨rfl, rfl, ?_⟩
        rw [hkv]
        exact updateKV_perm m.Data m.Path (hv2.trans hv0.symm)

/-- C6 witness: the amended statement on the two-entry document, with
pre-descend order a then b and rebuild order b then a. -/
theorem c6_witness :
    c6post.Path = c6pre.Path ∧ c6post.CurrC = cursorReset ∧
    c6post.CurrKV.Perm c6pre.CurrKV :=
  c6_amended c6pre c6mid c6post ["a", "b"] [] ["b", "a"] ⟨"a", "\x7b\x7d"⟩
    rfl (by decide) rfl rfl rfl (by decide) rfl rfl

/-- C7 counterexample: in the reachable state c7s1 the path is empty and
the cursor sits on row 1; handling x there is not a no-op — the cursor
is reset to row 0 even though the transition's precondition fails. -/
theorem c7_counterexample :
    Reach c7doc c7s1 ∧ c7s1.Path = [] ∧
    ValidOrder ["a", "b"] (iterMapOf Ev.back c7s1) ∧
    step ["a", "b"] Ev.back c7s1 = some c7s2 ∧
    c7s2.CurrC.RowNo ≠ c7s1.CurrC.RowNo :=
  ⟨Reach.next c7s0 .down [] c7s1
      (Reach.init ["a", "b"] c7s0 (by decide) rfl) (by decide) rfl,
   rfl, by decide, rfl, by decide⟩

/-- C7 amended: x with an empty path leaves the path empty and keeps the
same rows up to the unspecified iteration order, but it still resets the
cursor to row 0 on a key and rebuilds the row list, so it is not a
no-op on the cursor. -/
theorem c7_amended (m m' : Model) (σ σ0 : List String)
    (hpath : m.Path = [])
    (hkv : m.CurrKV = updateKV m.Data [] σ0)
    (hv0 : ValidOrder σ0 (resolvedMap m.Data []))
    (hv : ValidOrder σ (resolvedMap m.Data []))
    (h : step σ Ev.back m = some m') :
    m'.Path = [] ∧ m'.CurrKV.Perm m.CurrKV ∧ m'.CurrC = cursorReset := by
  simp only [step] at h
  rw [hpath] at h
  rw [if_pos rfl] at h
  split at h
  · cases h
  · rename_i p hstp
    cases h
    refine ⟨rfl, ?_, rfl⟩
    rw [hkv]
    exact updateKV_perm m.Data [] (hv.trans hv0.symm)

/-- C7 witness: the amended statement applied to the reachable state
c7s1 over the two-entry document. -/
theorem c7_witness :
    c7s2.Path = [] ∧ c7s2.CurrKV.Perm c7s1.CurrKV ∧ c7s2.CurrC = cursorReset :=
  c7_amended c7s1 c7s2 ["a", "b"] ["a", "b"] rfl rfl (by decide) (by decide) rfl

/-- C9: session construction from a parsed document with a scalar or
empty-collection top level fails (NewModel yields none, the
DocumentLoadError of the spec), and from a non-empty object or array it
succeeds with an empty path, the cursor at row 0 focused on a key, and
not at a terminal. -/
theorem c9_construction (data : GoVal) (σ : List String)
    (hσ : ValidOrder σ (getKAny data)) :
    ((isScalar data = true ∨ isEmptyCollection data = true) →
      NewModel σ data = none) ∧
    (isScalar data = false → isEmptyCollection data = false →
      ∃ m, NewModel σ data = some m ∧ m.Data = data ∧ m.Path = [] ∧
        m.CurrC.RowNo = 0 ∧ m.CurrC.IsKey = true ∧ m.CurrC.IsEnd = false) := by
  constructor
  · rintro (h | h)
    · have hk : getKAny data = none := by
        cases data <;> first | rfl | simp [isScalar] at h
      simp [NewModel, getInitialKV, hk]
    · have hk : ∃ mm, getKAny data = some mm ∧ mm = [] := by
        cases data with
        | obj l => cases l with
          | nil => exact ⟨[], rfl, rfl⟩
          | cons a rest => simp [isEmptyCollection] at h
        | arr l => cases l with
          | nil => exact ⟨[], rfl, rfl⟩
          | cons a rest => simp [isEmptyCollection] at h
        | _ => simp [isEmptyCollection] at h
      obtain ⟨mm, hk, hmm⟩ := hk
      subst hmm
      simp [NewModel, getInitialKV_eq, hk, rangeIterO, rangeIter_nil]
  · intro h1 h2
    have hk : ∃ mm, getKAny data = some mm ∧ mm ≠ [] := by
      cases data with
      | obj l => cases l with
        | nil => simp [isEmptyCollection] at h2
        | cons a rest => exact ⟨a :: rest, rfl, by simp⟩
      | arr l => cases l with
        | nil => simp [isEmptyCollection] at h2
        | cons a rest => exact ⟨_, rfl, by simp [List.enum]⟩
      | _ => simp [isScalar] at h1
    obtain ⟨mm, hk, hne⟩ := hk
    have hrows := getInitialKV_ne_nil hk hne hσ
    simp only [NewModel]
    rw [if_neg hrows]
    cases hstp : setTotalPages pageNew ((getInitialKV σ data).length : ℤ) with
    | none =>
      have := setTotalPages_isSome (p := pageNew)
        ((getInitialKV σ data).length : ℤ) (by decide)
      rw [hstp] at this
      cases this
    | some p => exact ⟨_, rfl, rfl, rfl, rfl, rfl, rfl⟩

/-- C9 witness: construction fails on a bare string and succeeds on a
one-entry object, with the stated initial cursor. -/
theorem c9_witness :
    NewModel [] (GoVal.str "s") = none ∧
    ∃ m, NewModel ["a"] (GoVal.obj [("a", GoVal.null)]) = some m ∧
      m.Data = GoVal.obj [("a", GoVal.null)] ∧ m.Path = [] ∧
      m.CurrC.RowNo = 0 ∧ m.CurrC.IsKey = true ∧ m.CurrC.IsEnd = false :=
  ⟨(c9_construction (GoVal.str "s") [] (by decide)).1 (Or.inl rfl),
   (c9_construction (GoVal.obj [("a", GoVal.null)]) ["a"] (by decide)).2
     rfl rfl⟩

/-- C10: handling any of the four cursor events up, down, right, left —
when the handler returns rather than panicking — leaves the document,
the path, the row list and the paginator unchanged; only the cursor
fields may change. -/
theorem c10_frame (m m' : Model) (σ : List String) (e : Ev)
    (he : e = Ev.up ∨ e = Ev.down ∨ e = Ev.right ∨ e = Ev.left)
    (h : step σ e m = some m') :
    m'.Data = m.Data ∧ m'.Path = m.Path ∧ m'.CurrKV = m.CurrKV ∧
      m'.Page = m.Page := by
  rcases he with rfl | rfl | rfl | rfl
  · simp only [step] at h; cases h; exact ⟨rfl, rfl, rfl, rfl⟩
  · simp only [step] at h; cases h; exact ⟨rfl, rfl, rfl, rfl⟩
  · simp only [step] at h
    by_cases hk : m.CurrC.IsKey = true
    · rw [if_pos hk] at h
      split at h
      · cases h
      · split at h <;> (cases h; exact ⟨rfl, rfl, rfl, rfl⟩)
    · rw [if_neg hk] at h; cases h; exact ⟨rfl, rfl, rfl, rfl⟩
  · simp only [step] at h; cases h; exact ⟨rfl, rfl, rfl, rfl⟩

/-- C10 witness: the frame property at a concrete up event from the
two-entry document's state with the cursor on row 1. -/
theorem c10_witness :
    c7s0.Data = c7s1.Data ∧ c7s0.Path = c7s1.Path ∧
    c7s0.CurrKV = c7s1.CurrKV ∧ c7s0.Page = c7s1.Page :=
  c10_frame c7s1 c7s0 [] Ev.up (Or.inl rfl) rfl

theorem validCursor_move (m : Model) (e : Ev) (he : e = Ev.up ∨ e = Ev.down)
    (h : validCursor m) :
    ∃ m', step [] e m = some m' ∧ validCursor m' ∧ m'.CurrKV = m.CurrKV := by
  obtain ⟨h1, h2⟩ := h
  rcases he with rfl | rfl
  · refine ⟨_, rfl, ⟨?_, ?_⟩, rfl⟩
    · intro hkv
      have h0 := h1 hkv
      show (if 0 < m.CurrC.RowNo then m.CurrC.RowNo - 1 else m.CurrC.RowNo) = 0
      split <;> omega
    · intro hkv
      have h0 := h2 hkv
      constructor
      · show 0 ≤ if 0 < m.CurrC.RowNo then m.CurrC.RowNo - 1 else m.CurrC.RowNo
        split <;> omega
      · show (if 0 < m.CurrC.RowNo then m.CurrC.RowNo - 1 else m.CurrC.RowNo)
          < (m.CurrKV.length : ℤ)
        split <;> omega
  · refine ⟨_, rfl, ⟨?_, ?_⟩, rfl⟩
    · intro hkv
      have h0 := h1 hkv
      have hlen : m.CurrKV.length = 0 := by rw [hkv]; rfl
      show (if m.CurrC.RowNo < (m.CurrKV.length : ℤ) - 1 then m.CurrC.RowNo + 1
        else m.CurrC.RowNo) = 0
      split <;> omega
    · intro hkv
      have h0 := h2 hkv
      constructor
      · show 0 ≤ if m.CurrC.RowNo < (m.CurrKV.length : ℤ) - 1 then
          m.CurrC.RowNo + 1 else m.CurrC.RowNo
        split <;> omega
      · show (if m.CurrC.RowNo < (m.CurrKV.length : ℤ) - 1 then
          m.CurrC.RowNo + 1 else m.CurrC.RowNo) < (m.CurrKV.length : ℤ)
        split <;> omega

/-- C8: after any sequence of up and down events from a state with a
valid cursor, the run never fails and the cursor bound still holds: row
index 0 when the row list is empty, otherwise an index inside the row
list. -/
theorem c8_cursor_bound (evs : List Ev)
    (he : ∀ e ∈ evs, e = Ev.up ∨ e = Ev.down) (m : Model)
    (h : validCursor m) :
    ∃ m', stepMoves evs m = some m' ∧ validCursor m' := by
  induction evs generalizing m with
  | nil => exact ⟨m, rfl, h⟩
  | cons e rest ih =>
    obtain ⟨m1, hs, hv, _⟩ :=
      validCursor_move m e (he e (List.mem_cons_self _ _)) h
    obtain ⟨m', hs', hv'⟩ :=
      ih (fun e hh => he e (List.mem_cons_of_mem _ hh)) m1 hv
    refine ⟨m', ?_, hv'⟩
    rw [stepMoves, hs, Option.some_bind]
    exact hs'

/-- C8 witness: a down-up run from the freshly constructed state over
the two-entry document. -/
theorem c8_witness :
    (∀ e ∈ [Ev.down, Ev.down, Ev.up], e = Ev.up ∨ e = Ev.down) ∧
    validCursor c7s0 ∧
    ∃ m', stepMoves [Ev.down, Ev.down, Ev.up] c7s0 = some m' ∧
      validCursor m' :=
  ⟨by decide, by decide,
   c8_cursor_bound [Ev.down, Ev.down, Ev.up] (by decide) c7s0 (by decide)⟩

theorem inv_init {data : GoVal} (hs : SafeDoc data) {σ : List String}
    {m : Model} (hm : NewModel σ data = some m) : Inv data m := by
  simp only [NewModel] at hm
  split at hm
  · cases hm
  · rename_i hne
    split at hm
    · cases hm
    · rename_i p hstp
      cases hm
      refine ⟨rfl, ?_, ?_, ?_⟩
      · intro n
        simp only [List.take_nil]
        constructor
        · cases hk : getKAny data with
          | none => exact absurd (by rw [getInitialKV_eq, hk]; rfl) hne
          | some mm => simp [isCollection, resolveVal, hk]
        · exact hs
      · intro kv hkv
        have hrw : getInitialKV σ data = updateKV data [] σ := by
          rw [updateKV, if_pos rfl]
        rw [hrw] at hkv
        exact updateKV_rows data [] σ kv hkv
      · intro hfk _
        simp [cursorReset] at hfk

theorem inv_step {data : GoVal} {m m' : Model}
    {σ : List String} {e : Ev} (hi : Inv data m)
    (hstep : step σ e m = some m') : Inv data m' := by
  obtain ⟨hdata, hcoll, hrows, hfoc⟩ := hi
  cases e with
  | up =>
    simp only [step] at hstep
    cases hstep
    exact ⟨hdata, hcoll, hrows, fun hk _ => by simp at hk⟩
  | down =>
    simp only [step] at hstep
    cases hstep
    exact ⟨hdata, hcoll, hrows, fun hk _ => by simp at hk⟩
  | left =>
    simp only [step] at hstep
    cases hstep
    exact ⟨hdata, hcoll, hrows, fun hk _ => by simp at hk⟩
  | right =>
    simp only [step] at hstep
    by_cases hk : m.CurrC.IsKey = true
    · rw [if_pos hk] at hstep
      split at hstep
      · cases hstep
      · rename_i kv hidx
        split at hstep
        · cases hstep
          exact ⟨hdata, hcoll, hrows, fun _ hke => by simp at hke⟩
        · rename_i hval
          cases hstep
          refine ⟨hdata, hcoll, hrows, fun _ _ => ⟨kv, hidx, ?_⟩⟩
          rcases not_and_or.1 hval with h | h
          · exact Or.inl (not_not.1 h)
          · exact Or.inr (not_not.1 h)
    · rw [if_neg hk] at hstep
      cases hstep
      exact ⟨hdata, hcoll, hrows, hfoc⟩
  | enter =>
    simp only [step] at hstep
    by_cases hc : m.CurrC.IsKey = false ∧ m.CurrC.IsEnd = false
    · rw [if_pos hc] at hstep
      split at hstep
      · cases hstep
      · rename_i kv hidx
        split at hstep
        · cases hstep
        · rename_i p hstp
          cases hstep
          obtain ⟨kv0, hidx0, hbr⟩ := hfoc hc.1 hc.2
          rw [hidx] at hidx0
          cases hidx0
          obtain ⟨v, hcl, hval⟩ := hrows kv (idx_mem hidx)
          rw [childLookup] at hcl
          obtain ⟨mm, hr, hg⟩ := Option.bind_eq_some.1 hcl
          rw [resolvedMap_eq] at hr
          have hfull := hcoll m.Path.length
          rw [List.take_length] at hfull
          have hsv : SafeDoc v := SafeDoc_child hfull.2 hr hg
          have hexp : getVal v = "\x7b\x7d" ∨ getVal v = "[]" := by
            rw [← hval]; exact hbr
          have hcolv : isCollection v = true := getVal_expandable hsv hexp
          have hvv : resolveVal data (m.Path ++ [kv.Key]) = v := by
            rw [resolveVal_append, hr]
            simp [mapIndex, hg]
          refine ⟨hdata, ?_, ?_, ?_⟩
          · intro n
            rcases le_or_lt n m.Path.length with hn | hn
            · rw [List.take_append_of_le_length hn]
              exact hcoll n
            · have hlen : (m.Path ++ [kv.Key]).length ≤ n := by
                simp only [List.length_append, List.length_singleton]
                omega
              rw [List.take_of_length_le hlen, hvv]
              exact ⟨hcolv, hsv⟩
          · rw [hdata]
            exact updateKV_rows data (m.Path ++ [kv.Key]) σ
          · intro hfk _
            simp [cursorReset] at hfk
    · rw [if_neg hc] at hstep
      cases hstep
      exact ⟨hdata, hcoll, hrows, hfoc⟩
  | back =>
    simp only [step] at hstep
    split at hstep
    · cases hstep
    · rename_i p hstp
      cases hstep
      refine ⟨hdata, ?_, ?_, ?_⟩
      · intro n
        by_cases hp : m.Path = []
        · rw [if_pos hp]
          exact hcoll n
        · rw [if_neg hp, List.dropLast_eq_take, List.take_take]
          exact hcoll _
      · rw [hdata]
        exact updateKV_rows data _ σ
      · intro hfk _
        simp [cursorReset] at hfk

theorem reach_inv {data : GoVal} (hs : SafeDoc data) {m : Model}
    (h : Reach data m) : Inv data m := by
  induction h with
  | init σ m hσ hm => exact inv_init hs hm
  | next m e σ m' hr hσ hst ih => exact inv_step ih hst

/-- C4 counterexample: for the document holding one string value that
reads as a brace pair, the claim's own "including" clause fails: the
state c4s2 is reachable (events right, enter — the right handler judges
the scalar string expandable because it renders exactly like an object)
and its path resolves to that scalar string, not to a collection. -/
theorem c4_counterexample :
    Reach c4doc c4s2 ∧ c4s2.Path = ["a"] ∧
    isCollection (resolveVal c4doc c4s2.Path) = false :=
  ⟨Reach.next c4s1 .enter [] c4s2
      (Reach.next c4s0 .right [] c4s1
        (Reach.init ["a"] c4s0 (by decide) rfl) (by decide) rfl)
      (by decide) rfl,
   rfl, rfl⟩

/-- C4 amended: in every reachable state over a document none of whose
string values reads literally as a brace pair or bracket pair (and which,
being unmarshalled JSON, holds no Go int values), resolving the path
against the root lands on an object or array, never on a scalar; for
documents containing such trick strings the invariant can fail. -/
theorem c4_amended (data : GoVal) (hs : SafeDoc data) (m : Model)
    (hr : Reach data m) : isCollection (resolveVal data m.Path) = true := by
  have h := (reach_inv hs hr).2.1 m.Path.length
  rw [List.take_length] at h
  exact h.1

/-- C4 witness: the amended invariant at the freshly constructed state
over a one-entry document with a null value. -/
theorem c4_witness :
    isCollection (resolveVal (GoVal.obj [("b", GoVal.null)])
      (Model.Path ⟨GoVal.obj [("b", GoVal.null)], cursorReset,
        [⟨"b", ""⟩], [], ⟨0, 1, 1⟩⟩)) = true :=
  c4_amended (GoVal.obj [("b", GoVal.null)])
    (SafeDoc.obj _ (fun p hp => by
      rcases List.mem_singleton.1 hp with rfl
      exact SafeDoc.null))
    _ (Reach.init ["b"] _ (by decide) rfl)

end JV
